import Mathlib

/-!
Verification development for the ClauseWeaver overlay-graph engine and its
client mirror.  The client-side functions (`buildEdgeMap`, `buildChildrenMap`,
`collectDescendants`, `computeDepth`, `computeDropTargets`, `applyEdgeUpdate`,
`handleMutation`, `handleDrop`, `handleResponse`) are shallow embeddings of
`frontend/src/hooks/useTree.ts`, `frontend/src/api.ts` and the application
drag handler.  The server-side engine (effective-edge resolver, validation
rules, mutation log) is not part of the shipped sources, so it is modelled
from the specification where needed; each such definition says so in its doc
comment.

JavaScript `Map`s are embedded as association lists with first-match lookup
(`List.lookup`) and in-place update (`mapSet`), `Set`s as lists with
membership-guarded insertion.  Both give the exact observable get/has
semantics of the originals.
-/

/-- In-place update of an association list, mirroring JavaScript
`Map.prototype.set`: the first binding of the key is overwritten, otherwise
the new binding is appended. -/
def mapSet {α : Type} (m : List (Nat × α)) (k : Nat) (v : α) : List (Nat × α) :=
  match m with
  | [] => [(k, v)]
  | (k', v') :: rest => if k' = k then (k, v) :: rest else (k', v') :: mapSet rest k v

/-- Removal of a key, mirroring JavaScript `Map.prototype.delete`. -/
def mapRemove {α : Type} (m : List (Nat × α)) (k : Nat) : List (Nat × α) :=
  m.filter (fun p => p.1 != k)

/-- JavaScript `Set.prototype.add` (no duplicate is inserted). -/
def setAdd (s : List Nat) (x : Nat) : List Nat :=
  if x ∈ s then s else s ++ [x]

/-- JavaScript `Set.prototype.delete`. -/
def setDelete (s : List Nat) (x : Nat) : List Nat :=
  s.filter (fun y => y != x)

/-- Whether an edge is part of the base forest or a user override
(`EdgeSource` in `frontend/src/components/TreeView.tsx`). -/
inductive EdgeSource
  | original
  | user
deriving DecidableEq, Repr

/-- The single-edge payload of every tree/mutation response
(`EdgeDTO` in `frontend/src/components/TreeView.tsx`); `from`/`to` are
spelled `fromId`/`toId` because both are reserved words in Lean. -/
structure EdgeDTO where
  fromId : Nat
  toId : Option Nat
  source : EdgeSource
deriving DecidableEq, Repr

/-- Projection of `ClauseNodeDTO` (`frontend/src/components/TreeView.tsx`) to
the fields read by the functions under verification: `id`, `containerId` and
`draggable`.  The remaining fields are presentation-only metadata never
consulted by the drop-target or traversal logic. -/
structure ClauseNode where
  id : Nat
  containerId : String
  draggable : Bool
deriving DecidableEq, Repr

/-- One row of the rendered tree (`RenderNode` in
`frontend/src/hooks/useTree.ts`). -/
structure RenderNode where
  node : ClauseNode
  depth : Nat
  mother : Option Nat
  isEdited : Bool
deriving DecidableEq, Repr

/-- `buildEdgeMap` from `frontend/src/hooks/useTree.ts`: folds the edge list
into a child-to-mother map (`edge.to ?? null` becomes the `Option`). -/
def buildEdgeMap (edges : List EdgeDTO) : List (Nat × Option Nat) :=
  edges.foldl (fun m e => mapSet m e.fromId e.toId) []

/-- The `mothers.forEach` loop of `buildChildrenMap`, processing the map
entries in order against the accumulated children index. -/
def buildChildrenMapAux : List (Nat × Option Nat) → List (Nat × List Nat) → List (Nat × List Nat)
  | [], cm => cm
  | (child, mo) :: rest, cm =>
    match mo with
    | none => buildChildrenMapAux rest cm
    | some m =>
      buildChildrenMapAux rest (mapSet cm m (((List.lookup m cm).getD []) ++ [child]))

/-- `buildChildrenMap` from `frontend/src/hooks/useTree.ts`: inverts the
mother map into a mother-to-children index, skipping entries whose mother is
null/undefined. -/
def buildChildrenMap (mothers : List (Nat × Option Nat)) : List (Nat × List Nat) :=
  buildChildrenMapAux mothers []

/-- `childrenMap.get(current) ?? []` as used inside `collectDescendants`. -/
def childrenOf (cm : List (Nat × List Nat)) (n : Nat) : List Nat :=
  (List.lookup n cm).getD []

/-- All values appearing in some children list of the map; only used to bound
the number of iterations of the `collectDescendants` loop. -/
def childrenUniv (cm : List (Nat × List Nat)) : List Nat :=
  (cm.map Prod.snd).flatten

/-- The inner `for (const child of children)` loop of `collectDescendants`:
push every not-yet-visited child onto the stack and mark it visited.  The
stack is a cons-list whose head is the next element `pop()` would return. -/
def pushChildren : List Nat → List Nat → List Nat → List Nat × List Nat
  | [], stack, visited => (stack, visited)
  | c :: cs, stack, visited =>
    if c ∈ visited then pushChildren cs stack visited
    else pushChildren cs (c :: stack) (c :: visited)

/-- The `while (stack.length > 0)` loop of `collectDescendants`
(`frontend/src/hooks/useTree.ts`), with explicit fuel; `none` means the fuel
ran out before the stack emptied (shown impossible for the fuel used by
`collectDescendants`). -/
def collectLoop (cm : List (Nat × List Nat)) : Nat → List Nat → List Nat → Option (List Nat)
  | _, [], visited => some visited
  | 0, _ :: _, _ => none
  | f + 1, cur :: stack, visited =>
    let r := pushChildren (childrenOf cm cur) stack visited
    collectLoop cm f r.1 r.2

/-- `collectDescendants` from `frontend/src/hooks/useTree.ts`: the set of
nodes reachable from `root` through the children index.  The fuel
`(childrenUniv cm).length + 1` dominates the loop's iteration count (each
iteration pops one entry, and entries are pushed at most once per child
occurrence), so the `getD` default is never taken. -/
def collectDescendants (root : Nat) (cm : List (Nat × List Nat)) : List Nat :=
  (collectLoop cm ((childrenUniv cm).length + 1) [root] []).getD []

/-- The `while` loop of `computeDepth` inside `buildRenderTree`
(`frontend/src/hooks/useTree.ts`), with explicit fuel. -/
def depthLoop (mothers : List (Nat × Option Nat)) (nodeIds : List Nat) :
    Nat → Option Nat → List Nat → Nat → Option Nat
  | 0, _, _, _ => none
  | f + 1, cur, seen, depth =>
    match cur with
    | none => some depth
    | some cid =>
      if cid ∈ nodeIds ∧ cid ∉ seen then
        depthLoop mothers nodeIds f ((List.lookup cid mothers).getD none)
          (cid :: seen) (depth + 1)
      else some depth

/-- `computeDepth` from `buildRenderTree` (`frontend/src/hooks/useTree.ts`):
walks the mother chain upward, guarded by a `seen` set.  The fuel
`nodeIds.length + 1` dominates the iteration count because every iteration
adds a fresh member of `nodeIds` to `seen`. -/
def computeDepth (mothers : List (Nat × Option Nat)) (nodeIds : List Nat) (id : Nat) : Nat :=
  (depthLoop mothers nodeIds (nodeIds.length + 1)
    ((List.lookup id mothers).getD none) [] 0).getD 0

/-- `buildRenderTree` from `frontend/src/hooks/useTree.ts`. -/
def buildRenderTree (nodes : List ClauseNode) (mothers : List (Nat × Option Nat))
    (edited : List Nat) : List RenderNode :=
  nodes.map (fun n =>
    { node := n
      depth := computeDepth mothers (nodes.map (fun x => x.id)) n.id
      mother := (List.lookup n.id mothers).getD none
      isEdited := decide (n.id ∈ edited) })

/-- The `nodesById` map of `useTree` (`new Map(nodes.map((node) => [node.id, node]))`). -/
def buildNodesById (nodes : List ClauseNode) : List (Nat × ClauseNode) :=
  nodes.foldl (fun m n => mapSet m n.id n) []

/-- The drop-target result (`DropTargets` in `frontend/src/types`). -/
structure DropTargets where
  nodeTargets : List Nat
  allowRoot : Bool
deriving DecidableEq, Repr

/-- `computeDropTargets` from `frontend/src/hooks/useTree.ts`: for a dragged
`childId`, forbid its collected descendants and itself, then keep every
remaining map entry that is draggable and — the identity-ordering shortcut —
has an id strictly below `childId`. -/
def computeDropTargets (nodes : List ClauseNode) (mothers : List (Nat × Option Nat))
    (childId : Nat) : DropTargets :=
  let nodesById := buildNodesById nodes
  match List.lookup childId nodesById with
  | none => { nodeTargets := [], allowRoot := false }
  | some _ =>
    let forbidden := childId :: collectDescendants childId (buildChildrenMap mothers)
    { nodeTargets :=
        (nodesById.filter (fun p =>
          !(forbidden.contains p.1) && p.2.draggable && decide (p.1 < childId))).map
          (fun p => p.1)
      allowRoot := true }

/-- The mutable client state touched by `useTree`'s mutation path: the
`mothers` map, the `edited` set and the error banner. -/
structure ClientState where
  mothers : List (Nat × Option Nat)
  edited : List Nat
  error : Option String
deriving DecidableEq, Repr

/-- `applyEdgeUpdate` from `frontend/src/hooks/useTree.ts`: set
`mothers(edge.from) := edge.to ?? null`, then add `edge.from` to `edited`
when the edge is user-sourced and delete it otherwise. -/
def applyEdgeUpdate (st : ClientState) (edge : EdgeDTO) : ClientState :=
  { st with
    mothers := mapSet st.mothers edge.fromId edge.toId
    edited :=
      match edge.source with
      | .user => setAdd st.edited edge.fromId
      | .original => setDelete st.edited edge.fromId }

/-- `handleMutation` from `frontend/src/hooks/useTree.ts`, as a pure state
transformer over the mutator's outcome: a successful mutator yields one
incremental `applyEdgeUpdate` and clears the error; a throwing mutator only
records the error message and rethrows. -/
def handleMutation (st : ClientState) (res : Except String EdgeDTO) :
    ClientState × Except String Unit :=
  match res with
  | .ok edge => ({ applyEdgeUpdate st edge with error := none }, .ok ())
  | .error msg => ({ st with error := some msg }, .error msg)

/-- What the JavaScript `try` block of `handleResponse`
(`frontend/src/api.ts`) terminates with: every path throws. -/
inductive JsThrow
  | thrown (msg : String)
  | typeOrParseError
deriving DecidableEq, Repr

/-- The `try` block of the non-ok branch of `handleResponse`: `JSON.parse`
(or the `.reason` access on a non-object) may itself throw
(`typeOrParseError`); otherwise `throw new Error(data.reason ?? text ??
"UNKNOWN_ERROR")` throws with the parsed reason (falling back to `text` when
`reason` is null/undefined; `text` is never null, so the `"UNKNOWN_ERROR"`
arm is dead).  `parsed = none` models a parse/type error, `parsed = some r`
a successful evaluation with reason value `r`. -/
def handleResponseTry (parsed : Option (Option String)) (text : String) : JsThrow :=
  match parsed with
  | none => .typeOrParseError
  | some r => .thrown (r.getD text)

/-- The non-ok branch of `handleResponse` (`frontend/src/api.ts`): whatever
the `try` block throws — including the deliberately thrown
`Error(data.reason ?? …)` — is caught by the surrounding `catch`, which
throws `Error(text || "Request failed")` instead.  The returned string is the
message of the error that actually escapes. -/
def handleResponseFailMsg (parsed : Option (Option String)) (text : String) : String :=
  match handleResponseTry parsed text with
  | .typeOrParseError => if text = "" then "Request failed" else text
  | .thrown _ => if text = "" then "Request failed" else text

/-- A resolved droppable id of the drag layer in the application component:
`rootDrop` for the `"root-drop"` zone, `nodeDrop id` for a successfully
parsed `"drop-<id>"`, `badDropId` when `parseDropId` returns null. -/
inductive OverTarget
  | rootDrop
  | nodeDrop (id : Nat)
  | badDropId
deriving DecidableEq, Repr

/-- The externally visible outcome of one drop gesture. -/
inductive DropOutcome
  | noAction
  | reportedError (msg : String)
  | rootifyRequest (child : Nat)
  | reparentRequest (child : Nat) (mother : Nat)
deriving DecidableEq, Repr

/-- `handleDrop` from the application component (`src/unnamed/part_002`), as
the decision it takes before issuing any request: missing drag id, missing
drop zone or missing precomputed targets abort silently; the root zone
rootifies when allowed; a node zone is refused when it is the dragged node
itself or not a precomputed target, and otherwise issues the reparent
request. -/
def handleDrop (childId : Option Nat) (over : Option OverTarget)
    (dropTargets : Option DropTargets) : DropOutcome :=
  match childId with
  | none => .noAction
  | some child =>
    match over with
    | none => .noAction
    | some overId =>
      match dropTargets with
      | none => .noAction
      | some dt =>
        match overId with
        | .rootDrop =>
          if dt.allowRoot then .rootifyRequest child
          else .reportedError "루트화가 허용되지 않는 노드입니다."
        | .badDropId => .reportedError "유효하지 않은 드랍 영역입니다."
        | .nodeDrop motherId =>
          if motherId = child then .reportedError "같은 노드에는 연결할 수 없습니다."
          else if motherId ∈ dt.nodeTargets then .reparentRequest child motherId
          else .reportedError "허용되지 않는 대상입니다."

/-- Modelled from the spec: the Corpus Index collaborator (§6) — the full
immutable node set with each node's original mother, container identifier and
draggability.  The backend that realizes it is not part of the shipped
sources. -/
structure Corpus where
  nodeIds : List Nat
  origMother : Nat → Option Nat
  containerOf : Nat → String
  isDraggable : Nat → Bool

/-- Modelled from the spec: the Overlay Store (§4.3) — at most one entry per
child; `some m` overrides the mother to `m`, `none` means rootified. -/
abbrev Overlay : Type := List (Nat × Option Nat)

/-- Modelled from the spec: the Effective-Edge Resolver (§4.1) —
`effective(n) = overlay(n) if present else originalMother(n)`. -/
def resolve (c : Corpus) (ov : Overlay) (n : Nat) : Option Nat :=
  match List.lookup n (ov : List (Nat × Option Nat)) with
  | some v => v
  | none => c.origMother n

/-- Modelled from the spec: rejection reason codes of the Validation Engine
(§4.2, §7). -/
inductive Reason
  | SelfParent
  | NotFound
  | CycleDetected
  | ScopeViolation
  | DepthExceeded
  | NotDraggable
deriving DecidableEq, Repr

/-- Modelled from the spec: the accept/reject outcome of `validate`. -/
inductive VResult
  | Accept
  | Reject (r : Reason)
deriving DecidableEq, Repr

/-- Modelled from the spec: the mutation kinds gated by the Validation
Engine. -/
inductive MutKind
  | Reparent
  | Rootify
deriving DecidableEq, Repr

/-- Modelled from the spec: the upward ancestor walk of the cycle check
(§4.2 rule 3) — follow `resolve` from `cur` for at most `fuel` steps and
report whether `child` is encountered. -/
def hitsUp (res : Nat → Option Nat) (child : Nat) : Nat → Nat → Bool
  | 0, cur => cur == child
  | f + 1, cur =>
    cur == child ||
      (match res cur with
       | some m => hitsUp res child f m
       | none => false)

/-- Modelled from the spec: the Validation Engine (§4.2) in its default
configuration (depth bound disabled).  Rules in order: self-parent, unknown
node, cycle (an upward walk bounded by the total node count), container
scope (skipped when `crossAllowed`).  `Rootify` skips the mother-directed
rules and only requires draggability. -/
def validate (c : Corpus) (ov : Overlay) (crossAllowed : Bool) (kind : MutKind)
    (child proposedMother : Nat) : VResult :=
  match kind with
  | .Rootify => if c.isDraggable child then .Accept else .Reject .NotDraggable
  | .Reparent =>
    if proposedMother = child then .Reject .SelfParent
    else if child ∉ c.nodeIds ∨ proposedMother ∉ c.nodeIds then .Reject .NotFound
    else if hitsUp (resolve c ov) child c.nodeIds.length proposedMother then
      .Reject .CycleDetected
    else if c.containerOf child ≠ c.containerOf proposedMother ∧ crossAllowed = false then
      .Reject .ScopeViolation
    else .Accept

/-- Modelled from the spec: the effective mother map of the whole corpus as
an edge list, the state the client mirror receives via `GetTree` and keeps in
its `mothers` map. -/
def effList (c : Corpus) (ov : Overlay) : List (Nat × Option Nat) :=
  c.nodeIds.map (fun n => (n, resolve c ov n))

/-- Modelled from the spec: one Mutation Log entry (§3) — the affected child
with the overlay state to restore on undo (`prevOverlay`) and on redo
(`nextOverlay`); `none` means "no overlay entry". -/
structure LogEntry where
  child : Nat
  prevOverlay : Option (Option Nat)
  nextOverlay : Option (Option Nat)

/-- Modelled from the spec: Overlay Store plus the two stacks of the Mutation
Log (§4.4). -/
structure EngineState where
  overlay : List (Nat × Option Nat)
  history : List LogEntry
  future : List LogEntry

/-- Modelled from the spec: committing one accepted mutation (§4.3/§4.4) —
record the child's previous overlay state, overwrite the overlay, push the
log entry and clear the redo stack. -/
def applyMutation (st : EngineState) (child : Nat) (v : Option Nat) : EngineState :=
  { overlay := mapSet st.overlay child v
    history := ⟨child, List.lookup child st.overlay, some v⟩ :: st.history
    future := [] }

/-- Modelled from the spec: reinstating a recorded overlay state — remove the
entry when the recorded state was "no overlay", else write it back. -/
def restoreOverlay (ov : List (Nat × Option Nat)) (child : Nat) :
    Option (Option Nat) → List (Nat × Option Nat)
  | none => mapRemove ov child
  | some v => mapSet ov child v

/-- Modelled from the spec: the single changed edge a mutation/undo/redo
response carries (§4.4, §6) — the effective mother after the change, tagged
`user` exactly when an overlay entry exists for the child. -/
def edgeFor (c : Corpus) (ov : List (Nat × Option Nat)) (child : Nat) : EdgeDTO :=
  { fromId := child
    toId := resolve c ov child
    source := if (List.lookup child ov).isSome then .user else .original }

/-- Modelled from the spec: `undo()` (§4.4) — pop the history stack, restore
the entry's previous overlay state, push the entry onto the redo stack and
return the changed edge; `none` models the `EmptyHistory` signal. -/
def undoMutation (c : Corpus) (st : EngineState) : Option (EngineState × EdgeDTO) :=
  match st.history with
  | [] => none
  | e :: rest =>
    let ov' := restoreOverlay st.overlay e.child e.prevOverlay
    some ({ overlay := ov', history := rest, future := e :: st.future },
      edgeFor c ov' e.child)

/-- Modelled from the spec: `redo()` (§4.4) — pop the redo stack, restore the
entry's new overlay state and push it back onto history; `none` models the
`EmptyFuture` signal. -/
def redoMutation (c : Corpus) (st : EngineState) : Option (EngineState × EdgeDTO) :=
  match st.future with
  | [] => none
  | e :: rest =>
    let ov' := restoreOverlay st.overlay e.child e.nextOverlay
    some ({ overlay := ov', history := e :: st.history, future := rest },
      edgeFor c ov' e.child)

/-- The number of entries of `univ` not yet in `visited`; the decreasing
measure of both traversal loops. -/
def cntFree (univ visited : List Nat) : Nat :=
  (univ.filter (fun x => decide (x ∉ visited))).length

/-- A concrete three-node chain corpus (1 ← 2 ← 3 by original mothers), used
to instantiate hypothesis-bearing theorems. -/
def sampleCorpus : Corpus :=
  { nodeIds := [1, 2, 3]
    origMother := fun n => if n = 2 then some 1 else if n = 3 then some 2 else none
    containerOf := fun _ => "Gen.1.1"
    isDraggable := fun _ => true }

/-- A concrete two-node corpus whose nodes live in different containers, used
to instantiate hypothesis-bearing theorems. -/
def sampleCorpusSplit : Corpus :=
  { nodeIds := [1, 2]
    origMother := fun _ => none
    containerOf := fun n => if n = 1 then "Gen.1.1" else "Gen.1.2"
    isDraggable := fun _ => true }

theorem lookup_cons_eq {α : Type} (rest : List (Nat × α)) (k : Nat) (v : α) :
    List.lookup k ((k, v) :: rest) = some v := by
  simp [List.lookup]

theorem lookup_cons_ne {α : Type} (rest : List (Nat × α)) (k n : Nat) (v : α)
    (h : n ≠ k) : List.lookup n ((k, v) :: rest) = List.lookup n rest := by
  have hb : (n == k) = false := beq_eq_false_iff_ne.mpr h
  simp [List.lookup, hb]

theorem lookup_mapSet_self {α : Type} (m : List (Nat × α)) (k : Nat) (v : α) :
    List.lookup k (mapSet m k v) = some v := by
  induction m with
  | nil => simp [mapSet, List.lookup]
  | cons p rest ih =>
    obtain ⟨k', v'⟩ := p
    by_cases h : k' = k
    · simp [mapSet, h, List.lookup]
    · rw [mapSet, if_neg h, lookup_cons_ne _ _ _ _ (Ne.symm h), ih]

theorem lookup_mapSet_ne {α : Type} (m : List (Nat × α)) (k n : Nat) (v : α)
    (h : n ≠ k) : List.lookup n (mapSet m k v) = List.lookup n m := by
  induction m with
  | nil => simp [mapSet, lookup_cons_ne _ _ _ _ h]
  | cons p rest ih =>
    obtain ⟨k', v'⟩ := p
    by_cases hk : k' = k
    · subst hk
      rw [mapSet, if_pos rfl, lookup_cons_ne _ _ _ _ h, lookup_cons_ne _ _ _ _ h]
    · by_cases hn : n = k'
      · subst hn
        rw [mapSet, if_neg hk, lookup_cons_eq, lookup_cons_eq]
      · rw [mapSet, if_neg hk, lookup_cons_ne _ _ _ _ hn, lookup_cons_ne _ _ _ _ hn, ih]

theorem mapRemove_cons {α : Type} (rest : List (Nat × α)) (k k' : Nat) (v' : α) :
    mapRemove ((k', v') :: rest) k =
      if k' = k then mapRemove rest k else (k', v') :: mapRemove rest k := by
  by_cases h : k' = k
  · have hb : (k' != k) = false := by simp [bne_iff_ne, h]
    simp [mapRemove, List.filter, hb, h]
  · have hb : (k' != k) = true := bne_iff_ne.mpr h
    simp [mapRemove, List.filter, hb, h]

theorem lookup_mapRemove_self {α : Type} (m : List (Nat × α)) (k : Nat) :
    List.lookup k (mapRemove m k) = none := by
  induction m with
  | nil => simp [mapRemove]
  | cons p rest ih =>
    obtain ⟨k', v'⟩ := p
    rw [mapRemove_cons]
    by_cases h : k' = k
    · rw [if_pos h, ih]
    · rw [if_neg h, lookup_cons_ne _ _ _ _ (Ne.symm h), ih]

theorem lookup_mapRemove_ne {α : Type} (m : List (Nat × α)) (k n : Nat)
    (h : n ≠ k) : List.lookup n (mapRemove m k) = List.lookup n m := by
  induction m with
  | nil => simp [mapRemove]
  | cons p rest ih =>
    obtain ⟨k', v'⟩ := p
    rw [mapRemove_cons]
    by_cases hk : k' = k
    · subst hk
      rw [if_pos rfl, lookup_cons_ne _ _ _ _ h, ih]
    · rw [if_neg hk]
      by_cases hn : n = k'
      · subst hn
        rw [lookup_cons_eq, lookup_cons_eq]
      · rw [lookup_cons_ne _ _ _ _ hn, lookup_cons_ne _ _ _ _ hn, ih]

theorem mem_setAdd (s : List Nat) (x n : Nat) :
    n ∈ setAdd s x ↔ n = x ∨ n ∈ s := by
  unfold setAdd
  by_cases h : x ∈ s
  · simp only [if_pos h]
    constructor
    · exact fun hn => Or.inr hn
    · rintro (rfl | hn)
      · exact h
      · exact hn
  · simp [if_neg h, List.mem_append, or_comm]

theorem mem_setDelete (s : List Nat) (x n : Nat) :
    n ∈ setDelete s x ↔ n ∈ s ∧ n ≠ x := by
  simp [setDelete, List.mem_filter, bne_iff_ne]

theorem mapSet_keys_subset {α : Type} (m : List (Nat × α)) (k : Nat) (v : α) :
    ∀ n ∈ (mapSet m k v).map Prod.fst, n = k ∨ n ∈ m.map Prod.fst := by
  induction m with
  | nil => simp [mapSet]
  | cons p rest ih =>
    obtain ⟨k', v'⟩ := p
    by_cases h : k' = k
    · subst h
      simp [mapSet]
    · intro n hn
      rw [mapSet, if_neg h] at hn
      simp only [List.map_cons, List.mem_cons] at hn ⊢
      rcases hn with rfl | hn
      · exact Or.inr (Or.inl rfl)
      · rcases ih n hn with rfl | hmem
        · exact Or.inl rfl
        · exact Or.inr (Or.inr hmem)

theorem mapSet_keys_nodup {α : Type} (m : List (Nat × α)) (k : Nat) (v : α)
    (h : (m.map Prod.fst).Nodup) : ((mapSet m k v).map Prod.fst).Nodup := by
  induction m with
  | nil => simp [mapSet]
  | cons p rest ih =>
    obtain ⟨k', v'⟩ := p
    simp only [List.map_cons, List.nodup_cons] at h
    by_cases hk : k' = k
    · subst hk
      rw [mapSet, if_pos rfl]
      simpa [List.nodup_cons] using h
    · rw [mapSet, if_neg hk]
      simp only [List.map_cons, List.nodup_cons]
      refine ⟨fun hmem => ?_, ih h.2⟩
      rcases mapSet_keys_subset rest k v k' hmem with rfl | hmem'
      · exact hk rfl
      · exact h.1 hmem'

theorem mem_of_lookup_eq_some {α : Type} (m : List (Nat × α)) (k : Nat) (v : α)
    (h : List.lookup k m = some v) : (k, v) ∈ m := by
  induction m with
  | nil => simp [List.lookup] at h
  | cons p rest ih =>
    obtain ⟨k', v'⟩ := p
    by_cases hk : k = k'
    · subst hk
      rw [lookup_cons_eq] at h
      simp only [Option.some_inj] at h
      subst h
      exact List.mem_cons_self _ _
    · rw [lookup_cons_ne _ _ _ _ hk] at h
      exact List.mem_cons_of_mem _ (ih h)

theorem lookup_eq_some_of_mem {α : Type} (m : List (Nat × α))
    (hnd : (m.map Prod.fst).Nodup) (k : Nat) (v : α) (hm : (k, v) ∈ m) :
    List.lookup k m = some v := by
  induction m with
  | nil => simp at hm
  | cons p rest ih =>
    obtain ⟨k', v'⟩ := p
    simp only [List.map_cons, List.nodup_cons] at hnd
    rcases List.mem_cons.mp hm with heq | hmem
    · rw [show k = k' from congrArg Prod.fst heq,
        show v = v' from congrArg Prod.snd heq]
      exact lookup_cons_eq _ _ _
    · have hk : k ≠ k' := by
        rintro rfl
        exact hnd.1 (List.mem_map.mpr ⟨(k, v), hmem, rfl⟩)
      rw [lookup_cons_ne _ _ _ _ hk]
      exact ih hnd.2 hmem

theorem mem_buildChildrenMapAux (m : List (Nat × Option Nat)) :
    ∀ (cm : List (Nat × List Nat)) (M c : Nat),
      c ∈ childrenOf (buildChildrenMapAux m cm) M ↔
        c ∈ childrenOf cm M ∨ (c, some M) ∈ m := by
  induction m with
  | nil => simp [buildChildrenMapAux]
  | cons p rest ih =>
    obtain ⟨child, mo⟩ := p
    intro cm M c
    cases mo with
    | none =>
      rw [buildChildrenMapAux, ih]
      simp
    | some m0 =>
      rw [buildChildrenMapAux, ih]
      have hstep : c ∈ childrenOf (mapSet cm m0 (((List.lookup m0 cm).getD []) ++ [child])) M ↔
          c ∈ childrenOf cm M ∨ (c = child ∧ M = m0) := by
        by_cases hM : M = m0
        · subst hM
          rw [childrenOf, lookup_mapSet_self]
          simp [childrenOf, and_comm, or_comm, eq_comm]
        · rw [childrenOf, lookup_mapSet_ne _ _ _ _ hM]
          simp only [childrenOf]
          constructor
          · exact fun h => Or.inl h
          · rintro (h | ⟨rfl, rfl⟩)
            · exact h
            · exact absurd rfl hM
      rw [hstep]
      constructor
      · rintro ((h | ⟨rfl, rfl⟩) | h)
        · exact Or.inl h
        · exact Or.inr (List.mem_cons_self _ _)
        · exact Or.inr (List.mem_cons_of_mem _ h)
      · rintro (h | h)
        · exact Or.inl (Or.inl h)
        · rcases List.mem_cons.mp h with heq | hmem
          · refine Or.inl (Or.inr ?_)
            have h1 : c = child := congrArg Prod.fst heq
            have h2 : some M = some m0 := congrArg Prod.snd heq
            exact ⟨h1, Option.some_inj.mp h2⟩
          · exact Or.inr hmem

theorem mem_buildChildrenMap (m : List (Nat × Option Nat)) (M c : Nat) :
    c ∈ childrenOf (buildChildrenMap m) M ↔ (c, some M) ∈ m := by
  rw [buildChildrenMap, mem_buildChildrenMapAux]
  simp [childrenOf]

/-- C10: the children index built by `buildChildrenMap` is the exact inverse
of the mother map — for a mothers map with unique keys (the invariant of a
JavaScript `Map`), `c` appears in the children list of `M` exactly when the
map sends `c` to the non-null mother `M`; nodes mapped to null appear in no
children list. -/
theorem claim_C10_childrenMap_inverse (m : List (Nat × Option Nat))
    (hnd : (m.map Prod.fst).Nodup) (M c : Nat) :
    c ∈ childrenOf (buildChildrenMap m) M ↔ List.lookup c m = some (some M) := by
  rw [mem_buildChildrenMap]
  exact ⟨fun hm => lookup_eq_some_of_mem m hnd _ _ hm,
    fun hl => mem_of_lookup_eq_some m _ _ hl⟩

theorem claim_C10_witness :
    (([(2, some 1), (3, (none : Option Nat))].map Prod.fst).Nodup) ∧
    (2 ∈ childrenOf (buildChildrenMap [(2, some 1), (3, none)]) 1 ↔
      List.lookup 2 [(2, some 1), (3, (none : Option Nat))] = some (some 1)) :=
  ⟨by decide, claim_C10_childrenMap_inverse [(2, some 1), (3, none)] (by decide) 1 2⟩

/-- C9: on every failed response, `handleResponse` throws an `Error` whose
message is the raw body text, or `"Request failed"` when the body is empty —
independently of how `JSON.parse` fared, because the `throw` carrying the
parsed `reason` happens inside the `try` block and is swallowed by the
surrounding `catch`. -/
theorem claim_C9_handleResponse_reason_unreachable
    (parsed : Option (Option String)) (text : String) :
    handleResponseFailMsg parsed text = if text = "" then "Request failed" else text := by
  cases parsed <;> rfl

/-- C7: a mutation whose mutator throws leaves the client's `mothers` map and
`edited` set exactly as they were — `handleMutation` only records the error
message and rethrows, with no partial update. -/
theorem claim_C7_rejected_mutation_state_untouched (st : ClientState) (msg : String) :
    (handleMutation st (.error msg)).1.mothers = st.mothers ∧
    (handleMutation st (.error msg)).1.edited = st.edited ∧
    (handleMutation st (.error msg)).2 = .error msg :=
  ⟨rfl, rfl, rfl⟩

/-- C8: `applyEdgeUpdate` is a single-edge frame update — it rebinds
`mothers(edge.from)` to `edge.to`, makes `edge.from` edited exactly when the
edge is user-sourced (removing it when original), and leaves the mothers
binding and edited status of every other node unchanged. -/
theorem claim_C8_applyEdgeUpdate_frame (st : ClientState) (edge : EdgeDTO) :
    List.lookup edge.fromId (applyEdgeUpdate st edge).mothers = some edge.toId ∧
    (∀ n, n ≠ edge.fromId →
      List.lookup n (applyEdgeUpdate st edge).mothers = List.lookup n st.mothers) ∧
    (edge.fromId ∈ (applyEdgeUpdate st edge).edited ↔ edge.source = .user) ∧
    (∀ n, n ≠ edge.fromId →
      (n ∈ (applyEdgeUpdate st edge).edited ↔ n ∈ st.edited)) := by
  obtain ⟨f, t, s⟩ := edge
  refine ⟨lookup_mapSet_self _ _ _, fun n hn => lookup_mapSet_ne _ _ _ _ hn, ?_, ?_⟩
  · cases s with
    | user => simp [applyEdgeUpdate, mem_setAdd]
    | original => simp [applyEdgeUpdate, mem_setDelete]
  · intro n hn
    cases s with
    | user => simp [applyEdgeUpdate, mem_setAdd, hn]
    | original => simp [applyEdgeUpdate, mem_setDelete, hn]

theorem claim_C8_witness :
    ((7 : Nat) ≠ 5 ∧
      List.lookup 7 (applyEdgeUpdate ⟨[(7, some 1)], [7], none⟩
        ⟨5, some 3, .user⟩).mothers = List.lookup 7 [(7, some 1)]) ∧
    ((6 : Nat) ≠ 5 ∧
      (6 ∈ (applyEdgeUpdate ⟨[(7, some 1)], [7], none⟩ ⟨5, some 3, .user⟩).edited ↔
        6 ∈ [7])) :=
  ⟨⟨by decide,
      (claim_C8_applyEdgeUpdate_frame ⟨[(7, some 1)], [7], none⟩
        ⟨5, some 3, .user⟩).2.1 7 (by decide)⟩,
    ⟨by decide,
      (claim_C8_applyEdgeUpdate_frame ⟨[(7, some 1)], [7], none⟩
        ⟨5, some 3, .user⟩).2.2.2 6 (by decide)⟩⟩

theorem filter_length_mono (l : List Nat) (p q : Nat → Bool)
    (h : ∀ x, p x = true → q x = true) :
    (l.filter p).length ≤ (l.filter q).length := by
  induction l with
  | nil => simp
  | cons a rest ih =>
    by_cases hp : p a = true
    · rw [List.filter_cons_of_pos hp, List.filter_cons_of_pos (h a hp)]
      simpa using ih
    · rw [List.filter_cons_of_neg (by simpa using hp)]
      by_cases hq : q a = true
      · rw [List.filter_cons_of_pos hq]
        exact le_trans ih (Nat.le_succ _)
      · rw [List.filter_cons_of_neg (by simpa using hq)]
        exact ih

theorem cntFree_cons_le (univ visited : List Nat) (c : Nat) :
    cntFree univ (c :: visited) ≤ cntFree univ visited := by
  refine filter_length_mono univ _ _ (fun x hx => ?_)
  simp only [decide_eq_true_eq] at hx ⊢
  exact fun hmem => hx (List.mem_cons_of_mem _ hmem)

theorem cntFree_cons_lt (univ visited : List Nat) (c : Nat)
    (hc : c ∈ univ) (hnv : c ∉ visited) :
    cntFree univ (c :: visited) < cntFree univ visited := by
  induction univ with
  | nil => simp at hc
  | cons a rest ih =>
    by_cases hac : a = c
    · subst hac
      have h1 : (decide (a ∉ a :: visited)) = false := by simp
      have h2 : (decide (a ∉ visited)) = true := by simpa using hnv
      simp only [cntFree, List.filter_cons, h1, h2, if_true, if_false,
        List.length_cons]
      exact Nat.lt_succ_of_le (cntFree_cons_le rest visited a)
    · have hc' : c ∈ rest := by
        rcases List.mem_cons.mp hc with h | h
        · exact absurd h.symm hac
        · exact h
      have heq : (decide (a ∉ c :: visited)) = (decide (a ∉ visited)) := by
        apply decide_eq_decide.mpr
        simp [List.mem_cons, hac]
      by_cases ha : (decide (a ∉ visited)) = true
      · simp only [cntFree, List.filter_cons, heq, ha, if_true, List.length_cons]
        exact Nat.succ_lt_succ (ih hc')
      · have ha' : (decide (a ∉ visited)) = false := by
          simpa using ha
        simp only [cntFree, List.filter_cons, heq, ha', if_false]
        exact ih hc'

theorem pushChildren_measure (univ : List Nat) :
    ∀ (cs stack visited : List Nat), (∀ b ∈ cs, b ∈ univ) →
      (pushChildren cs stack visited).1.length +
          cntFree univ (pushChildren cs stack visited).2 ≤
        stack.length + cntFree univ visited := by
  intro cs
  induction cs with
  | nil => intro stack visited _; simp [pushChildren]
  | cons c rest ih =>
    intro stack visited hmem
    by_cases hv : c ∈ visited
    · rw [pushChildren, if_pos hv]
      exact ih stack visited (fun b hb => hmem b (List.mem_cons_of_mem _ hb))
    · rw [pushChildren, if_neg hv]
      refine le_trans (ih (c :: stack) (c :: visited)
        (fun b hb => hmem b (List.mem_cons_of_mem _ hb))) ?_
      have hlt : cntFree univ (c :: visited) < cntFree univ visited :=
        cntFree_cons_lt univ visited c (hmem c (List.mem_cons_self _ _)) hv
      simp only [List.length_cons]
      omega

theorem mem_childrenOf_univ (cm : List (Nat × List Nat)) (a b : Nat)
    (h : b ∈ childrenOf cm a) : b ∈ childrenUniv cm := by
  rw [childrenOf] at h
  cases hl : List.lookup a cm with
  | none => rw [hl] at h; simp at h
  | some l =>
    rw [hl] at h
    simp only [Option.getD_some] at h
    have hmem : (a, l) ∈ cm := mem_of_lookup_eq_some cm a l hl
    rw [childrenUniv, List.mem_flatten]
    exact ⟨l, List.mem_map.mpr ⟨(a, l), hmem, rfl⟩, h⟩

theorem collectLoop_isSome (cm : List (Nat × List Nat)) :
    ∀ (f : Nat) (stack visited : List Nat),
      stack.length + cntFree (childrenUniv cm) visited ≤ f →
      (collectLoop cm f stack visited).isSome = true := by
  intro f
  induction f with
  | zero =>
    intro stack visited h
    cases stack with
    | nil => rfl
    | cons cur rest => simp [List.length_cons] at h
  | succ f ih =>
    intro stack visited h
    cases stack with
    | nil => rfl
    | cons cur rest =>
      rw [collectLoop]
      refine ih _ _ (le_trans (pushChildren_measure (childrenUniv cm) _ rest visited
        (fun b hb => mem_childrenOf_univ cm cur b hb)) ?_)
      simp only [List.length_cons] at h
      omega

theorem depthLoop_isSome (mothers : List (Nat × Option Nat)) (nodeIds : List Nat) :
    ∀ (f : Nat) (cur : Option Nat) (seen : List Nat) (depth : Nat),
      cntFree nodeIds seen < f →
      (depthLoop mothers nodeIds f cur seen depth).isSome = true := by
  intro f
  induction f with
  | zero => intro cur seen depth h; omega
  | succ f ih =>
    intro cur seen depth h
    cases cur with
    | none => rfl
    | some cid =>
      rw [depthLoop]
      by_cases hg : cid ∈ nodeIds ∧ cid ∉ seen
      · rw [if_pos hg]
        refine ih _ _ _ ?_
        have hlt : cntFree nodeIds (cid :: seen) < cntFree nodeIds seen :=
          cntFree_cons_lt nodeIds seen cid hg.1 hg.2
        omega
      · rw [if_neg hg]
        rfl

theorem cntFree_nil (univ : List Nat) : cntFree univ [] = univ.length := by
  rw [cntFree]
  have h : univ.filter (fun x => decide (x ∉ ([] : List Nat))) = univ :=
    List.filter_eq_self.mpr (fun a _ => by simp)
  rw [h]

/-- C6: both client traversals terminate on every mother map, cyclic ones
included — the `collectDescendants` stack loop empties within its visited-set
bound for every children map, and the `computeDepth` chain walk exits within
its seen-set bound for every mothers map and starting point (so the fuelled
embeddings never hit their fuel). -/
theorem claim_C6_traversals_terminate :
    (∀ (cm : List (Nat × List Nat)) (root : Nat),
      (collectLoop cm ((childrenUniv cm).length + 1) [root] []).isSome = true) ∧
    (∀ (mothers : List (Nat × Option Nat)) (nodeIds : List Nat) (start : Option Nat),
      (depthLoop mothers nodeIds (nodeIds.length + 1) start [] 0).isSome = true) := by
  constructor
  · intro cm root
    refine collectLoop_isSome cm _ [root] [] ?_
    rw [cntFree_nil]
    simp only [List.length_cons, List.length_nil]
    omega
  · intro mothers nodeIds start
    refine depthLoop_isSome mothers nodeIds _ start [] 0 ?_
    rw [cntFree_nil]
    omega

theorem hitsUp_self (res : Nat → Option Nat) (child : Nat) (f : Nat) :
    hitsUp res child f child = true := by
  cases f <;> simp [hitsUp]

theorem hitsUp_succ (res : Nat → Option Nat) (child : Nat) :
    ∀ (f : Nat) (cur : Nat), hitsUp res child f cur = true →
      hitsUp res child (f + 1) cur = true := by
  intro f
  induction f with
  | zero =>
    intro cur h
    rw [hitsUp] at h
    simp [hitsUp, h]
  | succ f ih =>
    intro cur h
    rw [hitsUp] at h
    rcases Bool.or_eq_true_iff.mp h with h1 | h2
    · simp [hitsUp, h1]
    · rw [hitsUp]
      refine Bool.or_eq_true_iff.mpr (Or.inr ?_)
      cases hres : res cur with
      | none => rw [hres] at h2; exact absurd h2 (by simp)
      | some m =>
        rw [hres] at h2
        simpa using ih m (by simpa using h2)

theorem hitsUp_mono (res : Nat → Option Nat) (child : Nat) (f g : Nat)
    (hfg : f ≤ g) (cur : Nat) (h : hitsUp res child f cur = true) :
    hitsUp res child g cur = true := by
  induction g with
  | zero =>
    have : f = 0 := Nat.le_zero.mp hfg
    subst this
    exact h
  | succ g ih =>
    rcases Nat.lt_or_ge f (g + 1) with hlt | hge
    · exact hitsUp_succ res child g cur (ih (Nat.lt_succ_iff.mp hlt))
    · have : f = g + 1 := le_antisymm hfg hge
      subst this
      exact h

theorem pushChildren_pres (res : Nat → Option Nat) (root cur : Nat) (U : List Nat) :
    ∀ (cs stack visited : List Nat),
      (∀ b ∈ cs, res b = some cur) →
      (cur = root ∨ cur ∈ visited) →
      (∀ b ∈ cs, b ∈ U) →
      visited.Nodup →
      (∀ v ∈ visited, hitsUp res root visited.length v = true) →
      (∀ v ∈ visited, v ∈ U) →
      (pushChildren cs stack visited).2.Nodup ∧
        (∀ v ∈ (pushChildren cs stack visited).2,
          hitsUp res root (pushChildren cs stack visited).2.length v = true) ∧
        (∀ v ∈ (pushChildren cs stack visited).2, v ∈ U) ∧
        (∀ s ∈ (pushChildren cs stack visited).1,
          s ∈ stack ∨ s ∈ (pushChildren cs stack visited).2) ∧
        (∀ v ∈ visited, v ∈ (pushChildren cs stack visited).2) := by
  intro cs
  induction cs with
  | nil =>
    intro stack visited _ _ _ hnd hhits hU
    exact ⟨hnd, hhits, hU, fun s hs => Or.inl hs, fun v hv => hv⟩
  | cons c rest ih =>
    intro stack visited hres hcur hcsU hnd hhits hU
    by_cases hv : c ∈ visited
    · rw [pushChildren, if_pos hv]
      exact ih stack visited (fun b hb => hres b (List.mem_cons_of_mem _ hb)) hcur
        (fun b hb => hcsU b (List.mem_cons_of_mem _ hb)) hnd hhits hU
    · rw [pushChildren, if_neg hv]
      have hhits' : ∀ v ∈ c :: visited,
          hitsUp res root (c :: visited).length v = true := by
        intro v hmem
        rcases List.mem_cons.mp hmem with rfl | hmem'
        · rw [List.length_cons, hitsUp]
          refine Bool.or_eq_true_iff.mpr (Or.inr ?_)
          rw [hres v (List.mem_cons_self _ _)]
          rcases hcur with rfl | hcurv
          · exact hitsUp_self res cur visited.length
          · exact hhits cur hcurv
        · exact hitsUp_mono res root visited.length (c :: visited).length
            (by simp) v (hhits v hmem')
      have hcur' : cur = root ∨ cur ∈ c :: visited := by
        rcases hcur with h | h
        · exact Or.inl h
        · exact Or.inr (List.mem_cons_of_mem _ h)
      have hU' : ∀ v ∈ c :: visited, v ∈ U := by
        intro v hmem
        rcases List.mem_cons.mp hmem with rfl | hmem'
        · exact hcsU v (List.mem_cons_self _ _)
        · exact hU v hmem'
      have hrec := ih (c :: stack) (c :: visited)
        (fun b hb => hres b (List.mem_cons_of_mem _ hb)) hcur'
        (fun b hb => hcsU b (List.mem_cons_of_mem _ hb))
        (List.nodup_cons.mpr ⟨hv, hnd⟩) hhits' hU'
      refine ⟨hrec.1, hrec.2.1, hrec.2.2.1, ?_, ?_⟩
      · intro s hs
        rcases hrec.2.2.2.1 s hs with hmem | hmem
        · rcases List.mem_cons.mp hmem with rfl | hmem'
          · exact Or.inr (hrec.2.2.2.2 s (List.mem_cons_self _ _))
          · exact Or.inl hmem'
        · exact Or.inr hmem
      · intro v hvmem
        exact hrec.2.2.2.2 v (List.mem_cons_of_mem _ hvmem)

theorem collectLoop_hits (cm : List (Nat × List Nat)) (res : Nat → Option Nat)
    (root : Nat) (Hlink : ∀ a b, b ∈ childrenOf cm a → res b = some a) :
    ∀ (f : Nat) (stack visited out : List Nat),
      collectLoop cm f stack visited = some out →
      visited.Nodup →
      (∀ v ∈ visited, hitsUp res root visited.length v = true) →
      (∀ s ∈ stack, s = root ∨ s ∈ visited) →
      (∀ v ∈ visited, v ∈ childrenUniv cm) →
      out.Nodup ∧ (∀ v ∈ out, hitsUp res root out.length v = true) ∧
        (∀ v ∈ out, v ∈ childrenUniv cm) := by
  intro f
  induction f with
  | zero =>
    intro stack visited out heq hnd hhits _ hU
    cases stack with
    | nil =>
      rw [collectLoop] at heq
      cases heq
      exact ⟨hnd, hhits, hU⟩
    | cons cur rest => exact absurd heq (by rw [collectLoop]; simp)
  | succ f ih =>
    intro stack visited out heq hnd hhits hstack hU
    cases stack with
    | nil =>
      rw [collectLoop] at heq
      cases heq
      exact ⟨hnd, hhits, hU⟩
    | cons cur rest =>
      rw [collectLoop] at heq
      have hpres := pushChildren_pres res root cur (childrenUniv cm)
        (childrenOf cm cur) rest visited
        (fun b hb => Hlink cur b hb)
        (hstack cur (List.mem_cons_self _ _))
        (fun b hb => mem_childrenOf_univ cm cur b hb)
        hnd hhits hU
      refine ih _ _ out heq hpres.1 hpres.2.1 ?_ hpres.2.2.1
      intro s hs
      rcases hpres.2.2.2.1 s hs with hmem | hmem
      · rcases hstack s (List.mem_cons_of_mem _ hmem) with h | h
        · exact Or.inl h
        · exact Or.inr (hpres.2.2.2.2 s h)
      · exact Or.inr hmem

theorem collectDescendants_spec (cm : List (Nat × List Nat)) (res : Nat → Option Nat)
    (root : Nat) (Hlink : ∀ a b, b ∈ childrenOf cm a → res b = some a) :
    (collectDescendants root cm).Nodup ∧
      (∀ v ∈ collectDescendants root cm,
        hitsUp res root (collectDescendants root cm).length v = true) ∧
      (∀ v ∈ collectDescendants root cm, v ∈ childrenUniv cm) := by
  have hsome : (collectLoop cm ((childrenUniv cm).length + 1) [root] []).isSome = true := by
    refine collectLoop_isSome cm _ [root] [] ?_
    rw [cntFree_nil]
    simp only [List.length_cons, List.length_nil]
    omega
  obtain ⟨out, heq⟩ := Option.isSome_iff_exists.mp hsome
  have hout : collectDescendants root cm = out := by
    rw [collectDescendants, heq, Option.getD_some]
  rw [hout]
  refine collectLoop_hits cm res root Hlink _ [root] [] out heq (by simp)
    (by simp) ?_ (by simp)
  intro s hs
  exact Or.inl (List.mem_singleton.mp hs)

theorem nodup_subset_length (l₁ l₂ : List Nat) (h₁ : l₁.Nodup)
    (h₂ : ∀ x ∈ l₁, x ∈ l₂) : l₁.length ≤ l₂.length := by
  calc l₁.length = l₁.toFinset.card := (List.toFinset_card_of_nodup h₁).symm
    _ ≤ l₂.toFinset.card := by
        refine Finset.card_le_card ?_
        intro x hx
        rw [List.mem_toFinset] at hx ⊢
        exact h₂ x hx
    _ ≤ l₂.length := l₂.toFinset_card_le

theorem mem_dropTargets_force (nodes : List ClauseNode) (m : List (Nat × Option Nat))
    (childId x : Nat) (hx : x ∈ (computeDropTargets nodes m childId).nodeTargets) :
    x ∉ (childId :: collectDescendants childId (buildChildrenMap m)) ∧ x < childId ∧
      ∃ nd, (x, nd) ∈ buildNodesById nodes ∧ nd.draggable = true := by
  rw [computeDropTargets] at hx
  split at hx
  · simp at hx
  · simp only [List.mem_map, List.mem_filter] at hx
    obtain ⟨p, ⟨hmem, hpred⟩, rfl⟩ := hx
    rcases Bool.and_eq_true_iff.mp hpred with ⟨h12, h3⟩
    rcases Bool.and_eq_true_iff.mp h12 with ⟨h1, h2⟩
    refine ⟨by simpa using h1, by simpa using h3, p.2, hmem, h2⟩

theorem foldl_mapSet_keys_nodup (nodes : List ClauseNode) :
    ∀ (m : List (Nat × ClauseNode)), (m.map Prod.fst).Nodup →
      ((nodes.foldl (fun m n => mapSet m n.id n) m).map Prod.fst).Nodup := by
  induction nodes with
  | nil => intro m h; simpa using h
  | cons n rest ih =>
    intro m h
    rw [List.foldl_cons]
    exact ih _ (mapSet_keys_nodup m n.id n h)

theorem buildNodesById_keys_nodup (nodes : List ClauseNode) :
    ((buildNodesById nodes).map Prod.fst).Nodup := by
  rw [buildNodesById]
  exact foldl_mapSet_keys_nodup nodes [] (by simp)

theorem mem_dropTargets_iff (nodes : List ClauseNode) (m : List (Nat × Option Nat))
    (childId x : Nat)
    (h : (List.lookup childId (buildNodesById nodes)).isSome = true) :
    x ∈ (computeDropTargets nodes m childId).nodeTargets ↔
      (∃ nd, List.lookup x (buildNodesById nodes) = some nd ∧ nd.draggable = true) ∧
        x ∉ collectDescendants childId (buildChildrenMap m) ∧ x ≠ childId ∧
        x < childId := by
  constructor
  · intro hx
    obtain ⟨hforb, hlt, nd, hmem, hdrag⟩ := mem_dropTargets_force nodes m childId x hx
    rw [List.mem_cons] at hforb
    push_neg at hforb
    exact ⟨⟨nd, lookup_eq_some_of_mem _ (buildNodesById_keys_nodup nodes) _ _ hmem,
      hdrag⟩, hforb.2, hforb.1, hlt⟩
  · rintro ⟨⟨nd, hlook, hdrag⟩, hdesc, hne, hlt⟩
    obtain ⟨cnode, hchild⟩ := Option.isSome_iff_exists.mp h
    rw [computeDropTargets]
    split
    · rename_i hnone
      rw [hchild] at hnone
      cases hnone
    · simp only [List.mem_map, List.mem_filter]
      refine ⟨(x, nd), ⟨mem_of_lookup_eq_some _ _ _ hlook, ?_⟩, rfl⟩
      refine Bool.and_eq_true_iff.mpr ⟨Bool.and_eq_true_iff.mpr ⟨?_, hdrag⟩, by simpa using hlt⟩
      simp [List.mem_cons, hne, hdesc]

theorem mem_effList (c : Corpus) (ov : Overlay) (b : Nat) (v : Option Nat)
    (h : (b, v) ∈ effList c ov) : b ∈ c.nodeIds ∧ resolve c ov b = v := by
  rw [effList, List.mem_map] at h
  obtain ⟨n, hn, heq⟩ := h
  have h1 : n = b := congrArg Prod.fst heq
  have h2 : resolve c ov n = v := congrArg Prod.snd heq
  subst h1
  exact ⟨hn, h2⟩

theorem effList_link (c : Corpus) (ov : Overlay) :
    ∀ a b, b ∈ childrenOf (buildChildrenMap (effList c ov)) a →
      resolve c ov b = some a := by
  intro a b h
  exact (mem_effList c ov b (some a) ((mem_buildChildrenMap _ a b).mp h)).2

theorem buildChildrenMapAux_keys_nodup (m : List (Nat × Option Nat)) :
    ∀ (cm : List (Nat × List Nat)), (cm.map Prod.fst).Nodup →
      ((buildChildrenMapAux m cm).map Prod.fst).Nodup := by
  induction m with
  | nil => intro cm h; simpa [buildChildrenMapAux] using h
  | cons p rest ih =>
    obtain ⟨child, mo⟩ := p
    intro cm h
    cases mo with
    | none => exact ih cm h
    | some m0 => exact ih _ (mapSet_keys_nodup cm m0 _ h)

theorem mem_childrenUniv_buildChildrenMap (m : List (Nat × Option Nat)) (v : Nat)
    (h : v ∈ childrenUniv (buildChildrenMap m)) : ∃ M, (v, some M) ∈ m := by
  rw [childrenUniv, List.mem_flatten] at h
  obtain ⟨l, hl, hv⟩ := h
  rw [List.mem_map] at hl
  obtain ⟨⟨M, l'⟩, hpair, heq⟩ := hl
  have heq' : l' = l := heq
  rw [← heq'] at hv
  have hnd : ((buildChildrenMap m).map Prod.fst).Nodup := by
    rw [buildChildrenMap]
    exact buildChildrenMapAux_keys_nodup m [] (by simp)
  have hlookup : List.lookup M (buildChildrenMap m) = some l' :=
    lookup_eq_some_of_mem _ hnd _ _ hpair
  have hco : v ∈ childrenOf (buildChildrenMap m) M := by
    rw [childrenOf, hlookup, Option.getD_some]
    exact hv
  exact ⟨M, (mem_buildChildrenMap m M v).mp hco⟩

/-- C5: a node can never become its own mother — the (spec-modelled) engine
rejects `Reparent(n, n)` with `SelfParent` as its first rule, the client
mirror never offers `n` among `computeDropTargets(n).nodeTargets`, and a drag
of `n` dropped onto `n` reports an error without issuing any reparent
request. -/
theorem claim_C5_no_self_loop (c : Corpus) (ov : Overlay) (cross : Bool) (n : Nat) :
    validate c ov cross .Reparent n n = .Reject .SelfParent ∧
    (∀ (nodes : List ClauseNode) (m : List (Nat × Option Nat)),
      n ∉ (computeDropTargets nodes m n).nodeTargets) ∧
    (∀ dt : DropTargets, handleDrop (some n) (some (.nodeDrop n)) (some dt) =
      .reportedError "같은 노드에는 연결할 수 없습니다.") := by
  refine ⟨by simp [validate], ?_, ?_⟩
  · intro nodes m hmem
    exact absurd (mem_dropTargets_force nodes m n n hmem).2.1 (lt_irrefl n)
  · intro dt
    simp [handleDrop]

/-- C2: cycle prevention — for every `child` of the corpus and every `d` in
`descendantsOf(child) ∪ {child}` computed over the current effective mother
map, the (spec-modelled) engine rejects `Reparent(child, d)` (with
`CycleDetected` whenever `d ≠ child`, with `SelfParent` for `d = child`), and
the client mirror never lists `d` in `computeDropTargets(child).nodeTargets`. -/
theorem claim_C2_cycle_prevention (c : Corpus) (ov : Overlay) (cross : Bool)
    (child d : Nat) (hchild : child ∈ c.nodeIds)
    (hd : d ∈ child :: collectDescendants child (buildChildrenMap (effList c ov))) :
    (∃ r, validate c ov cross .Reparent child d = .Reject r) ∧
    (d ≠ child → validate c ov cross .Reparent child d = .Reject .CycleDetected) ∧
    (∀ nodes : List ClauseNode,
      d ∉ (computeDropTargets nodes (effList c ov) child).nodeTargets) := by
  have hcycle : d ≠ child →
      validate c ov cross .Reparent child d = .Reject .CycleDetected := by
    intro hne
    have hdS : d ∈ collectDescendants child (buildChildrenMap (effList c ov)) := by
      rcases List.mem_cons.mp hd with rfl | h
      · exact absurd rfl hne
      · exact h
    have spec := collectDescendants_spec (buildChildrenMap (effList c ov))
      (resolve c ov) child (effList_link c ov)
    have hsub : ∀ x ∈ collectDescendants child (buildChildrenMap (effList c ov)),
        x ∈ c.nodeIds := by
      intro x hx
      obtain ⟨M, hm⟩ := mem_childrenUniv_buildChildrenMap _ x (spec.2.2 x hx)
      exact (mem_effList c ov x (some M) hm).1
    have hdNode : d ∈ c.nodeIds := hsub d hdS
    have hlen : (collectDescendants child (buildChildrenMap (effList c ov))).length ≤
        c.nodeIds.length := nodup_subset_length _ _ spec.1 hsub
    have hhit : hitsUp (resolve c ov) child c.nodeIds.length d = true :=
      hitsUp_mono _ _ _ _ hlen d (spec.2.1 d hdS)
    simp only [validate]
    rw [if_neg hne,
      if_neg (show ¬(child ∉ c.nodeIds ∨ d ∉ c.nodeIds) from by
        push_neg
        exact ⟨hchild, hdNode⟩),
      if_pos hhit]
  refine ⟨?_, hcycle, ?_⟩
  · by_cases hne : d = child
    · subst hne
      exact ⟨.SelfParent, by simp [validate]⟩
    · exact ⟨.CycleDetected, hcycle hne⟩
  · intro nodes hmem
    exact (mem_dropTargets_force nodes (effList c ov) child d hmem).1 hd

theorem claim_C2_witness :
    (1 ∈ sampleCorpus.nodeIds ∧
      3 ∈ 1 :: collectDescendants 1 (buildChildrenMap (effList sampleCorpus []))) ∧
    ((∃ r, validate sampleCorpus [] false .Reparent 1 3 = .Reject r) ∧
      ((3 : Nat) ≠ 1 →
        validate sampleCorpus [] false .Reparent 1 3 = .Reject .CycleDetected) ∧
      (∀ nodes : List ClauseNode,
        3 ∉ (computeDropTargets nodes (effList sampleCorpus []) 1).nodeTargets)) :=
  ⟨⟨by decide, by decide⟩,
    claim_C2_cycle_prevention sampleCorpus [] false 1 3 (by decide) (by decide)⟩

/-- C1 counterexample: in a two-node scope `{1, 2}` with no edges, node `2`
is draggable and lies outside `descendantsOf(1) ∪ {1}`, yet
`computeDropTargets(1).nodeTargets` does not contain it — the extra
`candidateId >= childId` exclusion of the source is observable, refuting the
claim that the disallowed set is exactly the descendant set plus the node
itself. -/
theorem claim_C1_counterexample :
    (2 : Nat) ≠ 1 ∧
    2 ∉ collectDescendants 1 (buildChildrenMap ([] : List (Nat × Option Nat))) ∧
    List.lookup 2 (buildNodesById
      [⟨1, "Gen.1.1", true⟩, ⟨2, "Gen.1.1", true⟩]) = some ⟨2, "Gen.1.1", true⟩ ∧
    2 ∉ (computeDropTargets [⟨1, "Gen.1.1", true⟩, ⟨2, "Gen.1.1", true⟩]
      [] 1).nodeTargets := by
  refine ⟨by decide, by decide, by decide, by decide⟩

/-- C1 (amended): for a `childId` present in the scope,
`computeDropTargets(childId).nodeTargets` contains exactly the draggable
nodes of the scope that are outside `collectDescendants(childId) ∪ {childId}`
AND whose identity is numerically smaller than `childId` — the
identity-ordering exclusion is part of the computed set, not merely the
descendant set plus the node itself. -/
theorem claim_C1_dropTargets_characterization (nodes : List ClauseNode)
    (m : List (Nat × Option Nat)) (childId x : Nat)
    (h : (List.lookup childId (buildNodesById nodes)).isSome = true) :
    x ∈ (computeDropTargets nodes m childId).nodeTargets ↔
      (∃ nd, List.lookup x (buildNodesById nodes) = some nd ∧ nd.draggable = true) ∧
        x ∉ collectDescendants childId (buildChildrenMap m) ∧ x ≠ childId ∧
        x < childId :=
  mem_dropTargets_iff nodes m childId x h

theorem claim_C1_witness :
    ((List.lookup 2 (buildNodesById
        [⟨1, "Gen.1.1", true⟩, ⟨2, "Gen.1.1", true⟩])).isSome = true) ∧
    (1 ∈ (computeDropTargets [⟨1, "Gen.1.1", true⟩, ⟨2, "Gen.1.1", true⟩]
        [] 2).nodeTargets ↔
      (∃ nd, List.lookup 1 (buildNodesById
          [⟨1, "Gen.1.1", true⟩, ⟨2, "Gen.1.1", true⟩]) = some nd ∧
        nd.draggable = true) ∧
        1 ∉ collectDescendants 2 (buildChildrenMap ([] : List (Nat × Option Nat))) ∧
        (1 : Nat) ≠ 2 ∧ (1 : Nat) < 2) :=
  ⟨by decide,
    claim_C1_dropTargets_characterization
      [⟨1, "Gen.1.1", true⟩, ⟨2, "Gen.1.1", true⟩] [] 2 1 (by decide)⟩

/-- C3 counterexample: with two draggable nodes in distinct containers and no
edges, `computeDropTargets(2).nodeTargets` contains node `1` although its
`containerId` differs from node `2`'s — the client mirror applies no
container filter, refuting the claim that every listed target shares the
dragged node's container. -/
theorem claim_C3_counterexample :
    1 ∈ (computeDropTargets [⟨1, "Gen.1.1", true⟩, ⟨2, "Gen.1.2", true⟩]
      [] 2).nodeTargets ∧
    Option.map ClauseNode.containerId (List.lookup 1 (buildNodesById
      [⟨1, "Gen.1.1", true⟩, ⟨2, "Gen.1.2", true⟩])) = some "Gen.1.1" ∧
    Option.map ClauseNode.containerId (List.lookup 2 (buildNodesById
      [⟨1, "Gen.1.1", true⟩, ⟨2, "Gen.1.2", true⟩])) = some "Gen.1.2" ∧
    ("Gen.1.1" : String) ≠ "Gen.1.2" := by
  refine ⟨by decide, by decide, by decide, by decide⟩

/-- C3 (amended): when `container(child) ≠ container(mother)` and
cross-container reparenting is disabled, the (spec-modelled) engine never
accepts the reparent, and rejects it with `ScopeViolation` whenever both
nodes are known and the cycle walk from `mother` does not encounter `child`
(the earlier `NotFound`/`CycleDetected` rules win otherwise).  The client
mirror applies no container filter, so `computeDropTargets` may list targets
of a different container (see the counterexample). -/
theorem claim_C3_scope_containment (c : Corpus) (ov : Overlay) (child mother : Nat)
    (hcont : c.containerOf child ≠ c.containerOf mother) :
    (∃ r, validate c ov false .Reparent child mother = .Reject r) ∧
    (child ∈ c.nodeIds → mother ∈ c.nodeIds →
      hitsUp (resolve c ov) child c.nodeIds.length mother = false →
      validate c ov false .Reparent child mother = .Reject .ScopeViolation) := by
  have hne : mother ≠ child := by
    rintro rfl
    exact hcont rfl
  constructor
  · simp only [validate]
    split_ifs with h1 h2 h3 h4
    · exact ⟨_, rfl⟩
    · exact ⟨_, rfl⟩
    · exact ⟨_, rfl⟩
    · exact ⟨_, rfl⟩
    · exact absurd ⟨hcont, trivial⟩ h4
  · intro hchild hmother hmiss
    simp only [validate]
    rw [if_neg hne,
      if_neg (show ¬(child ∉ c.nodeIds ∨ mother ∉ c.nodeIds) from by
        push_neg
        exact ⟨hchild, hmother⟩),
      if_neg (by simp [hmiss]),
      if_pos (show c.containerOf child ≠ c.containerOf mother ∧ True from
        ⟨hcont, trivial⟩)]

theorem claim_C3_witness :
    (sampleCorpusSplit.containerOf 1 ≠ sampleCorpusSplit.containerOf 2 ∧
      1 ∈ sampleCorpusSplit.nodeIds ∧ 2 ∈ sampleCorpusSplit.nodeIds ∧
      hitsUp (resolve sampleCorpusSplit []) 1
        sampleCorpusSplit.nodeIds.length 2 = false) ∧
    validate sampleCorpusSplit [] false .Reparent 1 2 = .Reject .ScopeViolation :=
  ⟨⟨by decide, by decide, by decide, by decide⟩,
    (claim_C3_scope_containment sampleCorpusSplit [] 1 2 (by decide)).2
      (by decide) (by decide) (by decide)⟩

theorem resolve_eq (c : Corpus) (ov : List (Nat × Option Nat)) (n : Nat) :
    resolve c ov n = (List.lookup n ov).getD (c.origMother n) := by
  cases h : List.lookup n ov <;> simp [resolve, h]

theorem resolve_restore_prev (c : Corpus) (ov : List (Nat × Option Nat))
    (child : Nat) (v : Option Nat) (n : Nat) :
    resolve c (restoreOverlay (mapSet ov child v) child (List.lookup child ov)) n =
      resolve c ov n := by
  cases hprev : List.lookup child ov with
  | none =>
    simp only [restoreOverlay]
    by_cases hn : n = child
    · subst hn
      rw [resolve_eq, resolve_eq, lookup_mapRemove_self, hprev]
    · rw [resolve_eq, resolve_eq, lookup_mapRemove_ne _ _ _ hn,
        lookup_mapSet_ne _ _ _ _ hn]
  | some w =>
    simp only [restoreOverlay]
    by_cases hn : n = child
    · subst hn
      rw [resolve_eq, resolve_eq, lookup_mapSet_self, hprev]
    · rw [resolve_eq, resolve_eq, lookup_mapSet_ne _ _ _ _ hn,
        lookup_mapSet_ne _ _ _ _ hn]

theorem edgeFor_mapSet (c : Corpus) (X : List (Nat × Option Nat)) (child : Nat)
    (v : Option Nat) : edgeFor c (mapSet X child v) child = ⟨child, v, .user⟩ := by
  simp [edgeFor, resolve_eq, lookup_mapSet_self]

theorem resolve_mapSet_congr (c : Corpus) (X Y : List (Nat × Option Nat))
    (child : Nat) (v : Option Nat)
    (h : ∀ n, resolve c X n = resolve c Y n) (n : Nat) :
    resolve c (mapSet X child v) n = resolve c (mapSet Y child v) n := by
  by_cases hn : n = child
  · subst hn
    rw [resolve_eq, resolve_eq, lookup_mapSet_self, lookup_mapSet_self]
  · rw [resolve_eq, lookup_mapSet_ne _ _ _ _ hn, ← resolve_eq, h n,
      resolve_eq, resolve_eq, lookup_mapSet_ne _ _ _ _ hn]

/-- C4: undo/redo inverse law — committing a mutation on `child` (overlay
value `v`, covering reparent `some m` and rootify `none`), then calling undo,
restores the effective edge of every node (in particular `child`) to its
pre-mutation value, and the subsequent redo restores the effective state of
the mutation and returns exactly the mutation's resulting edge again. -/
theorem claim_C4_undo_redo_inverse (c : Corpus) (st : EngineState) (child : Nat)
    (v : Option Nat) :
    ∃ st2 e2, undoMutation c (applyMutation st child v) = some (st2, e2) ∧
      (∀ n, resolve c st2.overlay n = resolve c st.overlay n) ∧
      ∃ st3 e3, redoMutation c st2 = some (st3, e3) ∧
        (∀ n, resolve c st3.overlay n =
          resolve c (applyMutation st child v).overlay n) ∧
        e3 = edgeFor c (applyMutation st child v).overlay child ∧
        e3 = ⟨child, v, .user⟩ := by
  refine ⟨_, _, rfl, ?_, _, _, rfl, ?_, ?_, ?_⟩
  · intro n
    exact resolve_restore_prev c st.overlay child v n
  · intro n
    show resolve c (mapSet (restoreOverlay (mapSet st.overlay child v) child
        (List.lookup child st.overlay)) child v) n =
      resolve c (mapSet st.overlay child v) n
    exact resolve_mapSet_congr c _ st.overlay child v
      (resolve_restore_prev c st.overlay child v) n
  · show edgeFor c (mapSet (restoreOverlay (mapSet st.overlay child v) child
        (List.lookup child st.overlay)) child v) child =
      edgeFor c (mapSet st.overlay child v) child
    rw [edgeFor_mapSet, edgeFor_mapSet]
  · show edgeFor c (mapSet (restoreOverlay (mapSet st.overlay child v) child
        (List.lookup child st.overlay)) child v) child = ⟨child, v, .user⟩
    rw [edgeFor_mapSet]
